import Mathlib

/-!
Verification of `src/filesystem/core.py`: a shallow embedding of its
filesystem utilities over an in-memory directory tree, together with
theorems settling the specified properties.

Filesystem model: a directory tree is a list of entries; each entry is a
file (with a name) or a directory (with a name and children). Paths are
lists of name components. MD5 itself is treated as a parameter
`md5 : List Nat → String` (a function from byte sequences to hex digests);
the code under verification only decides which bytes are fed to it and
when the fixed empty-input constant short-circuits the computation, so all
properties are proved for every such function (adding, where the spec
needs it, the true fact that the constant is the digest of the empty
input).
-/

namespace Filesystem

/-- A node of an in-memory filesystem tree: a file with a name, or a
directory with a name and a list of children entries. This is the state
the Python module's traversals read and (through caller deletions) mutate. -/
inductive Entry : Type where
  | file : String → Entry
  | dir : String → List Entry → Entry

/-- The name of an entry (`path.name` in the Python code). -/
def entryName : Entry → String
  | .file n => n
  | .dir n _ => n

/-! ## Hashing (`compute_md5_hash`, `compute_md5_hash_ssd`, `compute_weak_hash`) -/

/-- Constant `EMPTY_FILE_MD5_HASH` from `core.py`: the well-known digest of an empty
input, returned verbatim for zero-byte files. -/
def EMPTY_FILE_MD5_HASH : String := "d41d8cd98f00b204e9800998ecf8427e"

/-- Constant `SMALL_CHUNK_SIZE` from `core.py` (4 KB). -/
def SMALL_CHUNK_SIZE : Nat := 4 * 1024

/-- The buffered-read loop of `compute_md5_hash`:
`iter(lambda: f.read(chunk_size), b"")` produces the successive
`chunk_size`-byte chunks of the file content (stopping at once when
`chunk_size = 0`, since `f.read(0)` returns the empty sentinel). -/
def readChunks (chunkSize : Nat) : List Nat → List (List Nat)
  | [] => []
  | b :: rest =>
    if chunkSize = 0 then []
    else (b :: rest).take chunkSize :: readChunks chunkSize ((b :: rest).drop chunkSize)
termination_by content => content.length
decreasing_by
  simp only [List.length_drop, List.length_cons]
  omega

/-- Function `compute_md5_hash` from `core.py`: returns the fixed constant for a
zero-byte file; otherwise feeds the file to the hasher in
`chunkSize`-byte chunks (incremental `update` calls digest the
concatenation of the chunks). -/
def compute_md5_hash (md5 : List Nat → String) (content : List Nat) (chunkSize : Nat) : String :=
  if content.length = 0 then EMPTY_FILE_MD5_HASH
  else md5 (readChunks chunkSize content).flatten

/-- Function `compute_md5_hash_ssd` from `core.py`: returns the fixed constant for a
zero-byte file (an empty file cannot be memory-mapped); otherwise digests
the whole memory-mapped content in one update. -/
def compute_md5_hash_ssd (md5 : List Nat → String) (content : List Nat) : String :=
  if content.length = 0 then EMPTY_FILE_MD5_HASH
  else md5 content

/-- Function `compute_weak_hash` from `core.py`: if the caller-declared `file_size`
is at most `chunk_size`, digests the whole file; otherwise digests the
first `chunk_size` bytes followed by the last `chunk_size` bytes
(`f.seek(-chunk_size, SEEK_END)` then `f.read(chunk_size)`). The seek
fails (OSError, modelled as `none`) when the actual content is shorter
than `chunk_size`, since the target position would be negative. -/
def compute_weak_hash (md5 : List Nat → String) (content : List Nat)
    (file_size chunk_size : Nat) : Option String :=
  if file_size ≤ chunk_size then some (md5 content)
  else if content.length < chunk_size then none
  else some (md5 (content.take chunk_size ++ content.drop (content.length - chunk_size)))

/-! ## File search (`find_files`, `matches_any_extension`) -/

/-- Constant `WILDCARD_EXTENSION` from `core.py`. -/
def WILDCARD_EXTENSION : String := ".*"

/-- Constant `DEFAULT_EXCLUDED_DIRS` from `core.py`. -/
def DEFAULT_EXCLUDED_DIRS : List String :=
  [".git", ".pytest_cache", ".mypy_cache", "__pycache__"]

/-- Index of the last occurrence of a character in a list of characters
(`str.rfind`, as an `Option` instead of `-1`). -/
def lastIdxOf (c : Char) : List Char → Option Nat
  | [] => none
  | d :: rest =>
    match lastIdxOf c rest with
    | some i => some (i + 1)
    | none => if d = c then some 0 else none

/-- The rule of `pathlib.PurePath.suffix` on a final path component: the substring from
the last dot, provided the dot is neither the first nor the last
character; otherwise the empty string. -/
def pathSuffix (name : String) : String :=
  let cs := name.toList
  match lastIdxOf '.' cs with
  | some i => if 0 < i ∧ i < cs.length - 1 then String.mk (cs.drop i) else ""
  | none => ""

/-- Function `matches_any_extension` from `core.py`: true when some entry of
`extensions` is the wildcard or equals the file's suffix. -/
def matches_any_extension (name : String) (extensions : List String) : Bool :=
  extensions.any (fun ext => ext == WILDCARD_EXTENSION || pathSuffix name == ext)

/-- Function `find_files` from `core.py`, over the children list of the directory at
path `p`: depth-first; a subdirectory is descended into only when its name
is not excluded; a non-directory entry is yielded when it matches an
allowed extension. -/
def find_files (extensions excluded_dirs : List String) :
    List String → List Entry → List (List String)
  | _, [] => []
  | p, .dir n cs :: rest =>
    (if excluded_dirs.contains n then []
     else find_files extensions excluded_dirs (p ++ [n]) cs)
      ++ find_files extensions excluded_dirs p rest
  | p, .file n :: rest =>
    (if matches_any_extension n extensions then [p ++ [n]] else [])
      ++ find_files extensions excluded_dirs p rest

/-! ## Empty-directory search (`find_empty_directories`)

The generator `_find` is embedded as `findLoop`, processing the children
list of the directory at path `p` and returning the yielded paths together
with the directory's updated children list. The consumer is modelled by
the flag `consumerDeletes`: when true, the consumer removes every yielded
directory before pulling the next element (the contract of the dynamic
re-evaluation behaviour); when false, the consumer removes nothing. Each
recursive call receives an untouched subtree because the consumer only
ever deletes already-yielded directories, which lie in subtrees whose
processing has finished; the mutated subtree state is threaded back so
that the parent's final `not any(root.iterdir())` re-listing sees the
deletions. -/

/-- The body of `_find` in `find_empty_directories`, on the children of the
directory at path `p`: recurse (in recursive mode) into each subdirectory
in order — the recursion yields the subdirectory itself last if its
re-listed contents are then empty, and the consumer (when
`consumerDeletes`) removes it — then return the yields together with the
updated children list. -/
def findLoop (consumerDeletes recursively : Bool) :
    List String → List Entry → List (List String) × List Entry
  | _, [] => ([], [])
  | p, .file n :: rest =>
    let r := findLoop consumerDeletes recursively p rest
    (r.1, .file n :: r.2)
  | p, .dir n cs :: rest =>
    if recursively then
      let r1 := findLoop consumerDeletes recursively (p ++ [n]) cs
      let r2 := findLoop consumerDeletes recursively p rest
      if r1.2.isEmpty then
        (r1.1 ++ [p ++ [n]] ++ r2.1,
         (if consumerDeletes then [] else [Entry.dir n r1.2]) ++ r2.2)
      else (r1.1 ++ r2.1, Entry.dir n r1.2 :: r2.2)
    else
      let r := findLoop consumerDeletes recursively p rest
      (r.1, .dir n cs :: r.2)

/-- Function `find_empty_directories` from `core.py`: raises (modelled as `none`)
when the root is not a directory, before any traversal; otherwise runs
`_find` on the root — processing the children, then yielding the root
itself if its re-listed contents are empty. -/
def find_empty_directories (consumerDeletes recursively : Bool)
    (rootPath : List String) : Entry → Option (List (List String))
  | .file _ => none
  | .dir _ cs =>
    let r := findLoop consumerDeletes recursively rootPath cs
    some (if r.2.isEmpty then r.1 ++ [rootPath] else r.1)

/-! ## Directory operations (`try_rmdir`) -/

/-- Resolve a path to the entry it names within a children list: at each
level the first entry with the matching name component is taken, and
descent is possible only through directories. -/
def lookupPath : List Entry → List String → Option Entry
  | [], _ => none
  | _, [] => none
  | e :: es, [n] =>
    if entryName e = n then some e else lookupPath es [n]
  | e :: es, n :: n2 :: rest =>
    if entryName e = n then
      match e with
      | .dir _ cs => lookupPath cs (n2 :: rest)
      | .file _ => none
    else lookupPath es (n :: n2 :: rest)

/-- Operation `Path.rmdir` on the tree: removing the entry at the given path succeeds
(returning the updated tree) exactly when the path names an empty
directory; every other outcome (missing entry, file, non-empty directory)
is the error case `none`. -/
def rmdirAt : List Entry → List String → Option (List Entry)
  | _, [] => none
  | [], _ :: _ => none
  | e :: es, [n] =>
    if entryName e = n then
      match e with
      | .dir _ [] => some es
      | .dir _ (_ :: _) => none
      | .file _ => none
    else (rmdirAt es [n]).map (fun es' => e :: es')
  | e :: es, n :: n2 :: rest =>
    if entryName e = n then
      match e with
      | .dir m cs => (rmdirAt cs (n2 :: rest)).map (fun cs' => .dir m cs' :: es)
      | .file _ => none
    else (rmdirAt es (n :: n2 :: rest)).map (fun es' => e :: es')

/-- Function `try_rmdir` from `core.py`: attempt `rmdir` and catch every exception,
reporting success as a boolean; on failure the tree is left unchanged. -/
def try_rmdir (es : List Entry) (p : List String) : Bool × List Entry :=
  match rmdirAt es p with
  | some es' => (true, es')
  | none => (false, es)

/-! ## Well-formedness: real directory listings have pairwise-distinct
entry names at every level. -/

/-- A children list is well formed when no two entries of a directory
share a name, recursively. -/
def wfList : List Entry → Bool
  | [] => true
  | .file n :: rest => !(rest.map entryName).contains n && wfList rest
  | .dir n cs :: rest =>
    !(rest.map entryName).contains n && wfList cs && wfList rest

/-! ## Concrete material for witnesses -/

/-- A concrete stand-in digest function for witnesses: maps the empty byte
sequence to the fixed empty-input constant (as real MD5 does) and
otherwise encodes the length of the input. -/
def demoMd5 (bs : List Nat) : String :=
  if bs = [] then EMPTY_FILE_MD5_HASH else toString bs.length

/-! ## Theorems -/

/-- The chunks read by the buffered loop reassemble to the whole content,
for any positive chunk size. -/
theorem readChunks_flatten (chunkSize : Nat) (h : chunkSize ≠ 0) :
    (content : List Nat) → (readChunks chunkSize content).flatten = content
  | [] => by simp [readChunks]
  | b :: rest => by
    rw [readChunks]
    simp only [if_neg h, List.flatten_cons]
    rw [readChunks_flatten chunkSize h ((b :: rest).drop chunkSize)]
    exact List.take_append_drop chunkSize (b :: rest)
termination_by content => content.length
decreasing_by
  simp only [List.length_drop, List.length_cons]
  omega

/-- Claim C5: for every readable file (byte content) and every positive
chunk size, the buffered-read strong hash and the memory-mapped strong
hash return identical digests, for every digest function. -/
theorem strong_hash_variants_agree (md5 : List Nat → String) (content : List Nat)
    (chunkSize : Nat) (h : 0 < chunkSize) :
    compute_md5_hash md5 content chunkSize = compute_md5_hash_ssd md5 content := by
  unfold compute_md5_hash compute_md5_hash_ssd
  rw [readChunks_flatten chunkSize (Nat.pos_iff_ne_zero.mp h) content]

theorem strong_hash_variants_agree_witness :
    0 < 2 ∧ compute_md5_hash demoMd5 [1, 2, 3] 2 = compute_md5_hash_ssd demoMd5 [1, 2, 3] :=
  ⟨by decide, strong_hash_variants_agree demoMd5 [1, 2, 3] 2 (by decide)⟩

/-- Claim C6: for a zero-byte file, both strong-hash variants return the
fixed empty-input constant verbatim — for every digest function, so the
file content is never hashed — and the constant is the literal
"d41d8cd98f00b204e9800998ecf8427e". -/
theorem zero_byte_hash_constant (md5 : List Nat → String) (chunkSize : Nat) :
    compute_md5_hash md5 [] chunkSize = EMPTY_FILE_MD5_HASH ∧
    compute_md5_hash_ssd md5 [] = EMPTY_FILE_MD5_HASH ∧
    EMPTY_FILE_MD5_HASH = "d41d8cd98f00b204e9800998ecf8427e" := by
  refine ⟨?_, ?_, rfl⟩ <;> simp [compute_md5_hash, compute_md5_hash_ssd]

/-- Claim C7: when the declared `file_size` equals the actual size, the
weak hash digests the first `chunk_size` bytes followed by the last
`chunk_size` bytes for files larger than the chunk size, and digests the
whole file — agreeing with the strong hash — otherwise. The digest
function is arbitrary except for the true fact that it maps the empty
input to the fixed constant. -/
theorem weak_hash_byte_ranges (md5 : List Nat → String) (content : List Nat)
    (file_size chunk_size : Nat) (hsize : file_size = content.length)
    (hempty : md5 [] = EMPTY_FILE_MD5_HASH) :
    (chunk_size < file_size →
      compute_weak_hash md5 content file_size chunk_size
        = some (md5 (content.take chunk_size
            ++ content.drop (content.length - chunk_size)))) ∧
    (file_size ≤ chunk_size →
      compute_weak_hash md5 content file_size chunk_size
        = some (compute_md5_hash md5 content chunk_size)) := by
  constructor
  · intro hlt
    unfold compute_weak_hash
    rw [if_neg (by omega), if_neg (by omega)]
  · intro hle
    unfold compute_weak_hash compute_md5_hash
    rw [if_pos hle]
    by_cases h0 : content.length = 0
    · have hnil : content = [] := List.length_eq_zero.mp h0
      subst hnil
      simp [hempty]
    · rw [if_neg h0, readChunks_flatten chunk_size (by omega) content]

theorem weak_hash_byte_ranges_witness :
    2 < 3 ∧ (3 : Nat) = [5, 6, 7].length ∧ demoMd5 [] = EMPTY_FILE_MD5_HASH ∧
    compute_weak_hash demoMd5 [5, 6, 7] 3 2
      = some (demoMd5 ([5, 6, 7].take 2 ++ [5, 6, 7].drop ([5, 6, 7].length - 2))) :=
  ⟨by decide, by decide, by decide,
    (weak_hash_byte_ranges demoMd5 [5, 6, 7] 3 2 (by decide) (by decide)).1 (by decide)⟩

/-- Claim C10: `compute_weak_hash` trusts the caller-supplied `file_size`:
the bytes hashed depend only on whether `file_size ≤ chunk_size` (never on
the actual size), so for the three-byte file `[1, 2, 3]` with chunk size 1,
declaring `file_size = 1` hashes the entire file while declaring the true
size 3 hashes only the first and last byte, and the two digests differ
whenever the digest function distinguishes those byte sequences. -/
theorem weak_hash_trusts_declared_size (md5 : List Nat → String) (content : List Nat)
    (fs1 fs2 chunk_size : Nat) (hagree : fs1 ≤ chunk_size ↔ fs2 ≤ chunk_size)
    (hdist : md5 [1, 2, 3] ≠ md5 [1, 3]) :
    compute_weak_hash md5 content fs1 chunk_size
      = compute_weak_hash md5 content fs2 chunk_size ∧
    compute_weak_hash md5 [1, 2, 3] 1 1 = some (md5 [1, 2, 3]) ∧
    compute_weak_hash md5 [1, 2, 3] 3 1 = some (md5 [1, 3]) ∧
    compute_weak_hash md5 [1, 2, 3] 1 1 ≠ compute_weak_hash md5 [1, 2, 3] 3 1 := by
  have h2 : compute_weak_hash md5 [1, 2, 3] 1 1 = some (md5 [1, 2, 3]) := by
    simp [compute_weak_hash]
  have h3 : compute_weak_hash md5 [1, 2, 3] 3 1 = some (md5 [1, 3]) := by
    norm_num [compute_weak_hash]
  refine ⟨?_, h2, h3, ?_⟩
  · unfold compute_weak_hash
    by_cases h : fs1 ≤ chunk_size
    · rw [if_pos h, if_pos (hagree.mp h)]
    · rw [if_neg h, if_neg (fun hc => h (hagree.mpr hc))]
  · intro heq
    rw [h2, h3] at heq
    exact hdist (Option.some.inj heq)

theorem weak_hash_trusts_declared_size_witness :
    demoMd5 [1, 2, 3] ≠ demoMd5 [1, 3] ∧
    compute_weak_hash demoMd5 [9] 0 1 = compute_weak_hash demoMd5 [9] 1 1 :=
  ⟨by decide, (weak_hash_trusts_declared_size demoMd5 [9] 0 1 1 (by decide) (by decide)).1⟩

/-- Claim C4: when the root is not a directory, `find_empty_directories`
fails with the validation error (modelled as `none`) before any traversal,
so the resulting sequence yields no elements. -/
theorem find_empty_directories_requires_dir (consumerDeletes recursively : Bool)
    (rootPath : List String) (n : String) :
    find_empty_directories consumerDeletes recursively rootPath (.file n) = none := rfl

/-- In non-recursive mode the children loop of `_find` neither yields nor
changes anything: the only possible yield is the root itself. -/
theorem findLoop_nonrecursive (consumerDeletes : Bool) :
    (p : List String) → (es : List Entry) →
      findLoop consumerDeletes false p es = ([], es)
  | _, [] => by simp [findLoop]
  | p, .file n :: rest => by
    simp [findLoop, findLoop_nonrecursive consumerDeletes p rest]
  | p, .dir n cs :: rest => by
    simp [findLoop, findLoop_nonrecursive consumerDeletes p rest]

/-- Claim C2 is false on the code: with `recursively=False` the loop body
of `_find` never yields (the only `yield` inside the loop is guarded by
`recursively`), so no direct child is ever yielded — instead the root
itself is yielded exactly when the root is empty. -/
theorem nonrecursive_mode_behavior (consumerDeletes : Bool) (rootPath : List String)
    (rootName : String) (es : List Entry) :
    find_empty_directories consumerDeletes false rootPath (.dir rootName es)
      = some (if es.isEmpty then [rootPath] else []) := by
  have h := findLoop_nonrecursive consumerDeletes rootPath es
  simp only [find_empty_directories]
  rw [h]
  simp

/-- Every path yielded by the `find_files` recursion from the directory at
path `p` is `p`, then some (possibly empty) chain of non-excluded
directory names, then a file name matching the extension filter. -/
theorem find_files_mem (extensions excluded_dirs : List String) :
    (p : List String) → (es : List Entry) →
      ∀ q ∈ find_files extensions excluded_dirs p es,
        ∃ dirs fname, q = p ++ dirs ++ [fname] ∧
          (∀ c ∈ dirs, excluded_dirs.contains c = false) ∧
          matches_any_extension fname extensions = true
  | _, [] => by simp [find_files]
  | p, .dir n cs :: rest => by
    intro q hq
    simp only [find_files, List.mem_append] at hq
    rcases hq with hq | hq
    · cases hex : excluded_dirs.contains n with
      | true => rw [if_pos hex] at hq; simp at hq
      | false =>
        rw [hex] at hq
        simp only [Bool.false_eq_true, if_false] at hq
        obtain ⟨dirs, fname, heq, hdirs, hmatch⟩ :=
          find_files_mem extensions excluded_dirs (p ++ [n]) cs q hq
        refine ⟨n :: dirs, fname, by simp [heq], ?_, hmatch⟩
        intro c hc
        rcases List.mem_cons.mp hc with rfl | hc
        · exact hex
        · exact hdirs c hc
    · exact find_files_mem extensions excluded_dirs p rest q hq
  | p, .file n :: rest => by
    intro q hq
    simp only [find_files, List.mem_append] at hq
    rcases hq with hq | hq
    · cases hm : matches_any_extension n extensions with
      | true =>
        rw [if_pos hm] at hq
        simp only [List.mem_singleton] at hq
        exact ⟨[], n, by simp [hq], by simp, hm⟩
      | false => rw [hm] at hq; simp at hq
    · exact find_files_mem extensions excluded_dirs p rest q hq

/-- Claim C9: every file path yielded by `find_files` has no ancestor
directory below the root whose name is in the exclusion set, at any depth,
and its file name matches the extension filter; moreover a wildcard
extension value matches every file name. -/
theorem find_files_excludes_and_filters (extensions excluded_dirs : List String)
    (es : List Entry) (q : List String)
    (hq : q ∈ find_files extensions excluded_dirs [] es) :
    (∃ dirs fname, q = dirs ++ [fname] ∧
      (∀ c ∈ dirs, excluded_dirs.contains c = false) ∧
      matches_any_extension fname extensions = true) ∧
    (∀ name exts : _, WILDCARD_EXTENSION ∈ exts → matches_any_extension name exts = true) := by
  constructor
  · obtain ⟨dirs, fname, heq, h1, h2⟩ :=
      find_files_mem extensions excluded_dirs [] es q hq
    exact ⟨dirs, fname, by simpa using heq, h1, h2⟩
  · intro name exts hw
    unfold matches_any_extension
    rw [List.any_eq_true]
    exact ⟨WILDCARD_EXTENSION, hw, by simp⟩

theorem find_files_excludes_and_filters_witness :
    ["sub", "a.txt"] ∈ find_files [".txt"] DEFAULT_EXCLUDED_DIRS []
        [Entry.dir "sub" [Entry.file "a.txt"], Entry.dir ".git" [Entry.file "b.txt"]] ∧
    (∃ dirs fname, ["sub", "a.txt"] = dirs ++ [fname] ∧
      (∀ c ∈ dirs, DEFAULT_EXCLUDED_DIRS.contains c = false) ∧
      matches_any_extension fname [".txt"] = true) :=
  ⟨by simp [find_files, matches_any_extension, DEFAULT_EXCLUDED_DIRS, WILDCARD_EXTENSION,
      pathSuffix, lastIdxOf],
   (find_files_excludes_and_filters [".txt"] DEFAULT_EXCLUDED_DIRS
      [Entry.dir "sub" [Entry.file "a.txt"], Entry.dir ".git" [Entry.file "b.txt"]]
      ["sub", "a.txt"]
      (by simp [find_files, matches_any_extension, DEFAULT_EXCLUDED_DIRS, WILDCARD_EXTENSION,
        pathSuffix, lastIdxOf])).1⟩

/-- A non-empty directory cannot be removed: `rmdir` reports an error. -/
theorem rmdirAt_none_of_nonempty :
    (es : List Entry) → (p : List String) → ∀ n cs, cs ≠ [] →
      lookupPath es p = some (.dir n cs) → rmdirAt es p = none
  | [], p => by intro n cs hne h; cases p <;> simp [lookupPath] at h
  | _ :: _, [] => by intro n cs hne h; simp [lookupPath] at h
  | .file m :: es, [n0] => by
    intro n cs hne h
    by_cases hname : m = n0
    · simp [lookupPath, entryName, hname] at h
    · simp only [lookupPath, entryName, if_neg hname] at h
      simp [rmdirAt, entryName, if_neg hname,
        rmdirAt_none_of_nonempty es [n0] n cs hne h]
  | .dir m cs0 :: es, [n0] => by
    intro n cs hne h
    by_cases hname : m = n0
    · simp only [lookupPath, entryName, if_pos hname, Option.some.injEq,
        Entry.dir.injEq] at h
      obtain ⟨rfl, rfl⟩ := h
      cases cs0 with
      | nil => exact absurd rfl hne
      | cons c cs' => simp [rmdirAt, entryName, hname]
    · simp only [lookupPath, entryName, if_neg hname] at h
      cases cs0 <;>
        simp [rmdirAt, entryName, hname,
          rmdirAt_none_of_nonempty es [n0] n cs hne h]
  | .file m :: es, n0 :: n2 :: rest => by
    intro n cs hne h
    by_cases hname : m = n0
    · simp [lookupPath, entryName, hname] at h
    · simp only [lookupPath, entryName, if_neg hname] at h
      simp [rmdirAt, entryName, if_neg hname,
        rmdirAt_none_of_nonempty es (n0 :: n2 :: rest) n cs hne h]
  | .dir m cs0 :: es, n0 :: n2 :: rest => by
    intro n cs hne h
    by_cases hname : m = n0
    · simp only [lookupPath, entryName, if_pos hname] at h
      simp [rmdirAt, entryName, if_pos hname,
        rmdirAt_none_of_nonempty cs0 (n2 :: rest) n cs hne h]
    · simp only [lookupPath, entryName, if_neg hname] at h
      simp [rmdirAt, entryName, if_neg hname,
        rmdirAt_none_of_nonempty es (n0 :: n2 :: rest) n cs hne h]

/-- An empty directory can be removed: `rmdir` succeeds. -/
theorem rmdirAt_some_of_empty :
    (es : List Entry) → (p : List String) → ∀ n,
      lookupPath es p = some (.dir n []) → ∃ es', rmdirAt es p = some es'
  | [], p => by intro n h; cases p <;> simp [lookupPath] at h
  | _ :: _, [] => by intro n h; simp [lookupPath] at h
  | .file m :: es, [n0] => by
    intro n h
    by_cases hname : m = n0
    · simp [lookupPath, entryName, hname] at h
    · simp only [lookupPath, entryName, if_neg hname] at h
      obtain ⟨es', hes'⟩ := rmdirAt_some_of_empty es [n0] n h
      exact ⟨Entry.file m :: es', by simp [rmdirAt, entryName, if_neg hname, hes']⟩
  | .dir m cs0 :: es, [n0] => by
    intro n h
    by_cases hname : m = n0
    · simp only [lookupPath, entryName, if_pos hname, Option.some.injEq,
        Entry.dir.injEq] at h
      obtain ⟨rfl, rfl⟩ := h
      exact ⟨es, by simp [rmdirAt, entryName, hname]⟩
    · simp only [lookupPath, entryName, if_neg hname] at h
      obtain ⟨es', hes'⟩ := rmdirAt_some_of_empty es [n0] n h
      refine ⟨Entry.dir m cs0 :: es', ?_⟩
      cases cs0 <;> simp [rmdirAt, entryName, hname, hes']
  | .file m :: es, n0 :: n2 :: rest => by
    intro n h
    by_cases hname : m = n0
    · simp [lookupPath, entryName, hname] at h
    · simp only [lookupPath, entryName, if_neg hname] at h
      obtain ⟨es', hes'⟩ := rmdirAt_some_of_empty es (n0 :: n2 :: rest) n h
      exact ⟨Entry.file m :: es', by simp [rmdirAt, entryName, if_neg hname, hes']⟩
  | .dir m cs0 :: es, n0 :: n2 :: rest => by
    intro n h
    by_cases hname : m = n0
    · simp only [lookupPath, entryName, if_pos hname] at h
      obtain ⟨cs', hcs'⟩ := rmdirAt_some_of_empty cs0 (n2 :: rest) n h
      exact ⟨Entry.dir m cs' :: es, by simp [rmdirAt, entryName, if_pos hname, hcs']⟩
    · simp only [lookupPath, entryName, if_neg hname] at h
      obtain ⟨es', hes'⟩ := rmdirAt_some_of_empty es (n0 :: n2 :: rest) n h
      exact ⟨Entry.dir m cs0 :: es', by simp [rmdirAt, entryName, if_neg hname, hes']⟩

/-- Claim C8: `try_rmdir` is a total boolean-returning operation (all
failure modes of `rmdir` are normalized to `False`, never an exception):
it returns `False` on a non-empty directory, returns `True` when the path
names an empty directory (which it removes), and whenever it returns
`False` the tree is left entirely unchanged. -/
theorem try_rmdir_spec (es : List Entry) (p : List String) :
    ((try_rmdir es p).1 = false → (try_rmdir es p).2 = es) ∧
    (∀ n cs, cs ≠ [] → lookupPath es p = some (.dir n cs) →
      (try_rmdir es p).1 = false) ∧
    (∀ n, lookupPath es p = some (.dir n []) → (try_rmdir es p).1 = true) := by
  refine ⟨?_, ?_, ?_⟩
  · intro h
    unfold try_rmdir at h ⊢
    cases hr : rmdirAt es p with
    | some es' => rw [hr] at h; simp at h
    | none => rfl
  · intro n cs hne h
    unfold try_rmdir
    rw [rmdirAt_none_of_nonempty es p n cs hne h]
  · intro n h
    unfold try_rmdir
    obtain ⟨es', hes'⟩ := rmdirAt_some_of_empty es p n h
    rw [hes']

theorem try_rmdir_spec_witness :
    lookupPath [Entry.dir "a" [], Entry.dir "b" [Entry.file "x"]] ["a"]
      = some (Entry.dir "a" []) ∧
    (try_rmdir [Entry.dir "a" [], Entry.dir "b" [Entry.file "x"]] ["a"]).1 = true :=
  ⟨by simp [lookupPath, entryName],
   (try_rmdir_spec [Entry.dir "a" [], Entry.dir "b" [Entry.file "x"]] ["a"]).2.2 "a"
     (by simp [lookupPath, entryName])⟩

/-- A list cannot arise by appending something to a strictly longer list. -/
theorem not_append_of_length_lt {α : Type} {a b : List α} (h : b.length < a.length) :
    ¬ ∃ t, b = a ++ t := by
  rintro ⟨t, rfl⟩
  simp only [List.length_append] at h
  omega

/-- Lemma: `findLoop` processes the children list compositionally: both the yields
and the updated entries of a concatenation are the concatenations of those
of the parts (the two parts are disjoint subtrees). -/
theorem findLoop_append (d rcv : Bool) : (p : List String) → (l₁ l₂ : List Entry) →
    findLoop d rcv p (l₁ ++ l₂)
      = ((findLoop d rcv p l₁).1 ++ (findLoop d rcv p l₂).1,
         (findLoop d rcv p l₁).2 ++ (findLoop d rcv p l₂).2)
  | p, [], l₂ => by simp [findLoop]
  | p, .file n :: rest, l₂ => by
    simp [findLoop, findLoop_append d rcv p rest l₂]
  | p, .dir n cs :: rest, l₂ => by
    cases rcv with
    | false => simp [findLoop_nonrecursive]
    | true =>
      have ih := findLoop_append d true p rest l₂
      by_cases hemp : (findLoop d true (p ++ [n]) cs).2.isEmpty <;>
        simp [findLoop, ih, hemp, List.append_assoc]

/-- Every path yielded while processing a children list lies strictly below
`p ++ [m]` for the name `m` of one of the member directories. -/
theorem findLoop_localize (d : Bool) : (p : List String) → (es : List Entry) →
    ∀ q ∈ (findLoop d true p es).1,
      ∃ m cs2 t, Entry.dir m cs2 ∈ es ∧ q = p ++ m :: t
  | p, [] => by simp [findLoop]
  | p, .file n :: rest => by
    intro q hq
    simp only [findLoop] at hq
    obtain ⟨m, cs2, t, hm, ht⟩ := findLoop_localize d p rest q hq
    exact ⟨m, cs2, t, List.mem_cons_of_mem _ hm, ht⟩
  | p, .dir n cs :: rest => by
    intro q hq
    by_cases hemp : (findLoop d true (p ++ [n]) cs).2.isEmpty
    · simp [findLoop, hemp] at hq
      rcases hq with h | h | h
      · obtain ⟨m', cs', t', _, ht'⟩ := findLoop_localize d (p ++ [n]) cs q h
        exact ⟨n, cs, m' :: t', List.mem_cons_self _ _, by simp [ht']⟩
      · exact ⟨n, cs, [], List.mem_cons_self _ _, by simp [h]⟩
      · obtain ⟨m, cs2, t, hm, ht⟩ := findLoop_localize d p rest q h
        exact ⟨m, cs2, t, List.mem_cons_of_mem _ hm, ht⟩
    · simp [findLoop, hemp] at hq
      rcases hq with h | h
      · obtain ⟨m', cs', t', _, ht'⟩ := findLoop_localize d (p ++ [n]) cs q h
        exact ⟨n, cs, m' :: t', List.mem_cons_self _ _, by simp [ht']⟩
      · obtain ⟨m, cs2, t, hm, ht⟩ := findLoop_localize d p rest q h
        exact ⟨m, cs2, t, List.mem_cons_of_mem _ hm, ht⟩

/-- Processing a children list that consists solely of empty directories
yields each of them in order; when the consumer deletes yielded
directories the resulting listing is empty, otherwise it is unchanged. -/
theorem findLoop_all_empty (d : Bool) (q : List String) : (cs : List Entry) →
    (∀ e ∈ cs, ∃ m, e = Entry.dir m []) →
    findLoop d true q cs
      = (cs.map (fun e => q ++ [entryName e]), if d then [] else cs)
  | [], _ => by cases d <;> simp [findLoop]
  | e :: rest, hall => by
    obtain ⟨m, rfl⟩ := hall e (List.mem_cons_self _ _)
    have ih := findLoop_all_empty d q rest
      (fun e' he' => hall e' (List.mem_cons_of_mem _ he'))
    cases d <;> simp [findLoop, ih, entryName]

/-- Pairwise post-order property of the yields: a yielded path is never an
ancestor (prefix) of a later-yielded path, provided entry names are
pairwise distinct at every level of the tree. -/
theorem findLoop_pairwise (d : Bool) : (p : List String) → (es : List Entry) →
    wfList es = true →
    List.Pairwise (fun a b => ¬ ∃ t, b = a ++ t) (findLoop d true p es).1
  | p, [] => by intro _; simp [findLoop]
  | p, .file n :: rest => by
    intro hwf
    simp only [wfList, Bool.and_eq_true] at hwf
    have := findLoop_pairwise d p rest hwf.2
    simpa [findLoop] using this
  | p, .dir n cs :: rest => by
    intro hwf
    simp only [wfList, Bool.and_eq_true] at hwf
    obtain ⟨⟨hn, hcs⟩, hrest⟩ := hwf
    have hnotin : n ∉ rest.map entryName := by simpa using hn
    have hp1 := findLoop_pairwise d (p ++ [n]) cs hcs
    have hp2 := findLoop_pairwise d p rest hrest
    have hcross1 : ∀ a ∈ (findLoop d true (p ++ [n]) cs).1,
        ¬ ∃ t, p ++ [n] = a ++ t := by
      intro a ha
      obtain ⟨m', cs', t', _, rfl⟩ := findLoop_localize d (p ++ [n]) cs a ha
      apply not_append_of_length_lt
      simp
    have hcross2 : ∀ a ∈ (findLoop d true (p ++ [n]) cs).1,
        ∀ b ∈ (findLoop d true p rest).1, ¬ ∃ t, b = a ++ t := by
      intro a ha b hb
      rintro ⟨t, rfl⟩
      obtain ⟨m₁, cs₁, t₁, _, rfl⟩ := findLoop_localize d (p ++ [n]) cs a ha
      obtain ⟨m₂, cs₂, t₂, hm₂, heq⟩ :=
        findLoop_localize d p rest (((p ++ [n]) ++ m₁ :: t₁) ++ t) hb
      rw [List.append_assoc, List.append_assoc] at heq
      have h2 := List.append_cancel_left heq
      simp only [List.singleton_append, List.cons_append] at h2
      injection h2 with h3 _
      exact hnotin (h3 ▸ by simpa [entryName] using List.mem_map_of_mem entryName hm₂)
    have hcross3 : ∀ b ∈ (findLoop d true p rest).1,
        ¬ ∃ t, b = (p ++ [n]) ++ t := by
      intro b hb
      rintro ⟨t, heqb⟩
      obtain ⟨m₂, cs₂, t₂, hm₂, heq⟩ := findLoop_localize d p rest b hb
      rw [heqb, List.append_assoc] at heq
      have h2 := List.append_cancel_left heq
      simp only [List.singleton_append, List.cons_append] at h2
      injection h2 with h3 _
      exact hnotin (h3 ▸ by simpa [entryName] using List.mem_map_of_mem entryName hm₂)
    by_cases hemp : (findLoop d true (p ++ [n]) cs).2.isEmpty
    · have hshape : (findLoop d true p (Entry.dir n cs :: rest)).1
          = (findLoop d true (p ++ [n]) cs).1
            ++ ([p ++ [n]] ++ (findLoop d true p rest).1) := by
        simp [findLoop, hemp]
      rw [hshape]
      refine List.pairwise_append.mpr ⟨hp1, ?_, ?_⟩
      · refine List.pairwise_append.mpr ⟨List.pairwise_singleton _ _, hp2, ?_⟩
        intro a ha b hb
        obtain rfl : a = p ++ [n] := List.mem_singleton.mp ha
        exact hcross3 b hb
      · intro a ha b hb
        rcases List.mem_append.mp hb with hb1 | hb2
        · obtain rfl : b = p ++ [n] := List.mem_singleton.mp hb1
          exact hcross1 a ha
        · exact hcross2 a ha b hb2
    · have hshape : (findLoop d true p (Entry.dir n cs :: rest)).1
          = (findLoop d true (p ++ [n]) cs).1 ++ (findLoop d true p rest).1 := by
        simp [findLoop, hemp]
      rw [hshape]
      exact List.pairwise_append.mpr ⟨hp1, hp2, hcross2⟩

/-- Claim C3: in recursive mode, for every two directories d1 and d2
yielded by the traversal of an existing directory root, if d1 is a strict
descendant of d2 (d2 is a strict path prefix of d1) then d1 is yielded
before d2 — strict post-order — for either consumer behaviour, given the
filesystem invariant that sibling entry names are pairwise distinct. -/
theorem postorder_descendants_first (d : Bool) (rootPath : List String)
    (rootName : String) (cs : List Entry) (hwf : wfList cs = true)
    (ys : List (List String))
    (hys : find_empty_directories d true rootPath (Entry.dir rootName cs) = some ys)
    (i j : Nat) (hi : i < ys.length) (hj : j < ys.length) (d1 d2 : List String)
    (h1 : ys.get ⟨i, hi⟩ = d1) (h2 : ys.get ⟨j, hj⟩ = d2)
    (hdesc : ∃ t, d1 = d2 ++ t) (hne : d1 ≠ d2) : i < j := by
  have hPW : List.Pairwise (fun a b => ¬ ∃ t, b = a ++ t) ys := by
    have hbase := findLoop_pairwise d rootPath cs hwf
    have hcross : ∀ a ∈ (findLoop d true rootPath cs).1,
        ¬ ∃ t, rootPath = a ++ t := by
      intro a ha
      obtain ⟨m', cs', t', _, rfl⟩ := findLoop_localize d rootPath cs a ha
      apply not_append_of_length_lt
      simp
    simp only [find_empty_directories, Option.some.injEq] at hys
    by_cases hemp : (findLoop d true rootPath cs).2.isEmpty
    · have hshape : ys = (findLoop d true rootPath cs).1 ++ [rootPath] := by
        rw [← hys, if_pos hemp]
      rw [hshape]
      refine List.pairwise_append.mpr ⟨hbase, List.pairwise_singleton _ _, ?_⟩
      intro a ha b hb
      obtain rfl : b = rootPath := List.mem_singleton.mp hb
      exact hcross a ha
    · have hshape : ys = (findLoop d true rootPath cs).1 := by
        rw [← hys, if_neg hemp]
      rw [hshape]
      exact hbase
  rcases Nat.lt_trichotomy i j with h | h | h
  · exact h
  · subst h
    exact absurd (by rw [← h1, ← h2]) hne
  · have := List.pairwise_iff_get.mp hPW ⟨j, hj⟩ ⟨i, hi⟩ h
    rw [h1, h2] at this
    exact absurd hdesc this

theorem postorder_descendants_first_witness :
    wfList [Entry.dir "a" [Entry.dir "b" []]] = true ∧
    find_empty_directories true true ["r"]
        (Entry.dir "r" [Entry.dir "a" [Entry.dir "b" []]])
      = some [["r", "a", "b"], ["r", "a"], ["r"]] ∧
    (0 : Nat) < 1 :=
  ⟨by simp [wfList, entryName],
   by simp [find_empty_directories, findLoop],
   postorder_descendants_first true ["r"] "r" [Entry.dir "a" [Entry.dir "b" []]]
     (by simp [wfList, entryName])
     [["r", "a", "b"], ["r", "a"], ["r"]]
     (by simp [find_empty_directories, findLoop])
     0 1 (by decide) (by decide) ["r", "a", "b"] ["r", "a"] rfl rfl
     ⟨["b"], rfl⟩ (by decide)⟩

/-- Claim C1: dynamic re-evaluation. For a root containing a directory at
`rootPath ++ [n]` whose entries are all empty subdirectories (at least
one), with arbitrary differently-named siblings around it: if the consumer
deletes each yielded directory before pulling the next, that directory is
itself yielded on the same traversal pass; if the consumer deletes
nothing, it is never yielded. -/
theorem dynamic_reevaluation (rootPath : List String) (rootName n : String)
    (cs pre post : List Entry)
    (hcs : ∀ e ∈ cs, ∃ m, e = Entry.dir m []) (hne : cs ≠ [])
    (hnames : ∀ e ∈ pre ++ post, entryName e ≠ n)
    (ysD ysN : List (List String))
    (hD : find_empty_directories true true rootPath
        (Entry.dir rootName (pre ++ Entry.dir n cs :: post)) = some ysD)
    (hN : find_empty_directories false true rootPath
        (Entry.dir rootName (pre ++ Entry.dir n cs :: post)) = some ysN) :
    (rootPath ++ [n]) ∈ ysD ∧ (rootPath ++ [n]) ∉ ysN := by
  have hlen : rootPath ++ [n] ≠ rootPath := by
    intro h
    have := congrArg List.length h
    simp at this
  constructor
  · -- consumer deletes every yielded directory: the parent becomes
    -- empty by the time its own listing is re-checked, so it is yielded
    have hr1 := findLoop_all_empty true (rootPath ++ [n]) cs hcs
    have hconsD : (rootPath ++ [n])
        ∈ (findLoop true true rootPath (Entry.dir n cs :: post)).1 := by
      simp [findLoop, hr1]
    have hsplit := findLoop_append true true rootPath pre (Entry.dir n cs :: post)
    have hL : (rootPath ++ [n])
        ∈ (findLoop true true rootPath (pre ++ Entry.dir n cs :: post)).1 := by
      rw [hsplit]
      exact List.mem_append_right _ hconsD
    simp only [find_empty_directories, Option.some.injEq] at hD
    by_cases hemp :
        (findLoop true true rootPath (pre ++ Entry.dir n cs :: post)).2.isEmpty
    · rw [← hD, if_pos hemp]
      exact List.mem_append_left _ hL
    · rw [← hD, if_neg hemp]
      exact hL
  · -- consumer deletes nothing: the parent keeps its (still-present)
    -- children when its listing is re-checked, so it is never yielded
    have hcsne : cs.isEmpty = false := by
      cases cs with
      | nil => exact absurd rfl hne
      | cons c cs' => rfl
    have hr1 := findLoop_all_empty false (rootPath ++ [n]) cs hcs
    have hside : ∀ side : List Entry, (∀ e ∈ side, entryName e ≠ n) →
        (rootPath ++ [n]) ∉ (findLoop false true rootPath side).1 := by
      intro side hnm hmem
      obtain ⟨m, cs₂, t, hm, heq⟩ := findLoop_localize false rootPath side _ hmem
      have h2 := List.append_cancel_left heq
      injection h2 with h3 h4
      exact hnm _ hm (by simpa [entryName] using h3.symm)
    have hmid : (rootPath ++ [n])
        ∉ cs.map (fun e => (rootPath ++ [n]) ++ [entryName e]) := by
      intro hmem
      obtain ⟨e, _, heq⟩ := List.mem_map.mp hmem
      have := congrArg List.length heq
      simp at this
    have hconsN : (findLoop false true rootPath (Entry.dir n cs :: post)).1
        = cs.map (fun e => (rootPath ++ [n]) ++ [entryName e])
          ++ (findLoop false true rootPath post).1 := by
      simp [findLoop, hr1, hcsne]
    have hsplit := findLoop_append false true rootPath pre (Entry.dir n cs :: post)
    have hL : (rootPath ++ [n])
        ∉ (findLoop false true rootPath (pre ++ Entry.dir n cs :: post)).1 := by
      rw [hsplit]
      intro hmem
      rcases List.mem_append.mp hmem with hmem | hmem
      · exact hside pre (fun e he => hnames e (List.mem_append_left _ he)) hmem
      · rw [hconsN] at hmem
        rcases List.mem_append.mp hmem with hmem | hmem
        · exact hmid hmem
        · exact hside post (fun e he => hnames e (List.mem_append_right _ he)) hmem
    simp only [find_empty_directories, Option.some.injEq] at hN
    by_cases hemp :
        (findLoop false true rootPath (pre ++ Entry.dir n cs :: post)).2.isEmpty
    · rw [← hN, if_pos hemp]
      intro hmem
      rcases List.mem_append.mp hmem with hmem | hmem
      · exact hL hmem
      · exact hlen (List.mem_singleton.mp hmem)
    · rw [← hN, if_neg hemp]
      exact hL

theorem dynamic_reevaluation_witness :
    ([Entry.dir "x" [], Entry.dir "y" []] : List Entry) ≠ [] ∧
    find_empty_directories true true []
        (Entry.dir "r" [Entry.dir "p" [Entry.dir "x" [], Entry.dir "y" []]])
      = some [["p", "x"], ["p", "y"], ["p"], []] ∧
    (([] : List String) ++ ["p"]) ∈ [["p", "x"], ["p", "y"], ["p"], []] ∧
    (([] : List String) ++ ["p"]) ∉ [["p", "x"], ["p", "y"]] := by
  refine ⟨by simp, by simp [find_empty_directories, findLoop], ?_, ?_⟩
  · exact (dynamic_reevaluation [] "r" "p" [Entry.dir "x" [], Entry.dir "y" []] [] []
      (by intro e he; rcases List.mem_cons.mp he with rfl | he'
          · exact ⟨"x", rfl⟩
          · rcases List.mem_cons.mp he' with rfl | he''
            · exact ⟨"y", rfl⟩
            · simp at he'')
      (by simp) (by simp)
      [["p", "x"], ["p", "y"], ["p"], []] [["p", "x"], ["p", "y"]]
      (by simp [find_empty_directories, findLoop])
      (by simp [find_empty_directories, findLoop])).1
  · exact (dynamic_reevaluation [] "r" "p" [Entry.dir "x" [], Entry.dir "y" []] [] []
      (by intro e he; rcases List.mem_cons.mp he with rfl | he'
          · exact ⟨"x", rfl⟩
          · rcases List.mem_cons.mp he' with rfl | he''
            · exact ⟨"y", rfl⟩
            · simp at he'')
      (by simp) (by simp)
      [["p", "x"], ["p", "y"], ["p"], []] [["p", "x"], ["p", "y"]]
      (by simp [find_empty_directories, findLoop])
      (by simp [find_empty_directories, findLoop])).2

end Filesystem
